import Mathlib

/-!
Shallow embedding of the core of the stackbt repository: automata
combinators, the pushdown automaton, the behavior-tree-node protocol and
its serial/parallel compositions, and the node runner.  Rust mutable-state
methods are modelled as pure state-passing functions; the take-and-replace
idiom (an Option slot swapped out for the duration of the call) is
modelled with an explicit Option slot, with the poisoned branch returning
none.
-/

namespace StackBT

/-- From behavior_tree_node.rs: a two-case union distinguishing an
in-progress nonterminal value from a final terminal value. -/
inductive Statepoint (N T : Type) where
  | Nonterminal (n : N)
  | Terminal (t : T)
deriving DecidableEq, Repr

/-- From behavior_tree_node.rs: the return value of behavior tree nodes.
At a nonterminal the updated node is returned alongside the value; at a
terminal only the value is returned and the node is gone. -/
inductive NodeResult (R T N : Type) where
  | Nonterminal (r : R) (n : N)
  | Terminal (t : T)
deriving DecidableEq, Repr

/-- From pushdown_automaton.rs: nonterminal pushdown transition of a stack
frame: push a new machine, stay, or pop the current frame. -/
inductive PushdownTransition (A G : Type) where
  | Push (a : A) (g : G)
  | Stay (a : A)
  | Pop (a : A)
deriving DecidableEq, Repr

/-- From pushdown_automaton.rs: terminal pushdown transition of the bottom
machine: push a new machine or stay; there is no Pop variant. -/
inductive TerminalTransition (A G : Type) where
  | Push (a : A) (g : G)
  | Stay (a : A)
deriving DecidableEq, Repr

/-- From pushdown_automaton.rs, fn stack_elm_transition.  A frame automaton
is modelled by its state type N and a step function; the bottom automaton
by state type T and its step function; G is the pushed-frame generator
converted by intoFrame (the Into impl).  The stack is a list whose head is
the top of the Rust Vec.  Returns the action together with the new stack
and new bottom state. -/
def stack_elm_transition {I A G N T : Type}
    (frameStep : N → I → PushdownTransition A G × N)
    (bottomStep : T → I → TerminalTransition A G × T)
    (intoFrame : G → N) :
    List N → T → I → A × List N × T
  | val :: rest, bottom, input =>
    match frameStep val input with
    | (PushdownTransition.Push act new, stepped) =>
        (act, intoFrame new :: stepped :: rest, bottom)
    | (PushdownTransition.Stay act, stepped) =>
        (act, stepped :: rest, bottom)
    | (PushdownTransition.Pop act, _) =>
        (act, rest, bottom)
  | [], bottom, input =>
    match bottomStep bottom input with
    | (TerminalTransition.Push act new, steppedBottom) =>
        (act, [intoFrame new], steppedBottom)
    | (TerminalTransition.Stay act, steppedBottom) =>
        (act, [], steppedBottom)

/-- Concrete frame step mirroring nonterminal_transition from the tests of
pushdown_automaton.rs: input 0 pushes, negative input pops, positive input
stays while overwriting the internal state. -/
def test_frame_step (internal : Int) (input : Int) :
    PushdownTransition Int Unit × Int :=
  if input = 0 then (PushdownTransition.Push internal (), internal)
  else if input < 0 then (PushdownTransition.Pop internal, internal)
  else (PushdownTransition.Stay internal, input)

/-- Concrete bottom step mirroring terminal_transition from the tests of
pushdown_automaton.rs. -/
def test_bottom_step (internal : Int) (input : Int) :
    TerminalTransition Int Unit × Int :=
  if input = 0 then (TerminalTransition.Push internal (), internal)
  else (TerminalTransition.Stay internal, input)

/-- Concrete Into conversion for pushed frames: a fresh frame machine with
internal state 0, as in the tests of pushdown_automaton.rs. -/
def test_into_frame (_g : Unit) : Int := 0

/-- C1: a single pushdown transition behaves as specified: with a
non-empty stack the top frame is popped and stepped; on Push the stepped
frame and then the new frame are pushed and the action returned; on Stay
the stepped frame is pushed back; on Pop exactly that one frame is
discarded, with no cascading pops.  With an empty stack the bottom is
stepped; on Push the new frame is pushed with the (stepped) bottom
retained; on Stay the bottom is kept. -/
theorem pushdown_single_transition_spec {I A G N T : Type}
    (frameStep : N → I → PushdownTransition A G × N)
    (bottomStep : T → I → TerminalTransition A G × T)
    (intoFrame : G → N) (bottom : T) (input : I) :
    (∀ val rest act g stepped,
      frameStep val input = (PushdownTransition.Push act g, stepped) →
      stack_elm_transition frameStep bottomStep intoFrame (val :: rest) bottom input
        = (act, intoFrame g :: stepped :: rest, bottom)) ∧
    (∀ val rest act stepped,
      frameStep val input = (PushdownTransition.Stay act, stepped) →
      stack_elm_transition frameStep bottomStep intoFrame (val :: rest) bottom input
        = (act, stepped :: rest, bottom)) ∧
    (∀ val rest act stepped,
      frameStep val input = (PushdownTransition.Pop act, stepped) →
      stack_elm_transition frameStep bottomStep intoFrame (val :: rest) bottom input
        = (act, rest, bottom)) ∧
    (∀ act g steppedBottom,
      bottomStep bottom input = (TerminalTransition.Push act g, steppedBottom) →
      stack_elm_transition frameStep bottomStep intoFrame [] bottom input
        = (act, [intoFrame g], steppedBottom)) ∧
    (∀ act steppedBottom,
      bottomStep bottom input = (TerminalTransition.Stay act, steppedBottom) →
      stack_elm_transition frameStep bottomStep intoFrame [] bottom input
        = (act, [], steppedBottom)) := by
  refine ⟨?_, ?_, ?_, ?_, ?_⟩
  · intro val rest act g stepped h
    simp [stack_elm_transition, h]
  · intro val rest act stepped h
    simp [stack_elm_transition, h]
  · intro val rest act stepped h
    simp [stack_elm_transition, h]
  · intro act g steppedBottom h
    simp [stack_elm_transition, h]
  · intro act steppedBottom h
    simp [stack_elm_transition, h]

/-- C1 witness: the five cases of the pushdown transition evaluated at
concrete machines from the tests of the repository. -/
theorem pushdown_single_transition_spec_witness :
    stack_elm_transition test_frame_step test_bottom_step test_into_frame
      [(5 : Int)] 4 0 = (5, [0, 5], 4) ∧
    stack_elm_transition test_frame_step test_bottom_step test_into_frame
      [(5 : Int)] 4 7 = (5, [7], 4) ∧
    stack_elm_transition test_frame_step test_bottom_step test_into_frame
      [(5 : Int)] 4 (-1) = (5, [], 4) ∧
    stack_elm_transition test_frame_step test_bottom_step test_into_frame
      [] 4 0 = (4, [0], 4) ∧
    stack_elm_transition test_frame_step test_bottom_step test_into_frame
      [] 4 7 = (4, [], 7) := by
  have h := pushdown_single_transition_spec
    test_frame_step test_bottom_step test_into_frame (4 : Int) (0 : Int)
  have h7 := pushdown_single_transition_spec
    test_frame_step test_bottom_step test_into_frame (4 : Int) (7 : Int)
  have hneg := pushdown_single_transition_spec
    test_frame_step test_bottom_step test_into_frame (4 : Int) (-1 : Int)
  exact ⟨h.1 5 [] 5 () 5 (by decide),
         h7.2.1 5 [] 5 7 (by decide),
         hneg.2.2.1 5 [] 5 5 (by decide),
         h.2.2.2.1 4 () 4 (by decide),
         h7.2.2.2.2 4 7 (by decide)⟩

/-- C9: a pushdown transition made while the frame stack is non-empty
leaves the bottom automaton unchanged: it is neither stepped nor
replaced. -/
theorem pushdown_nonempty_preserves_bottom {I A G N T : Type}
    (frameStep : N → I → PushdownTransition A G × N)
    (bottomStep : T → I → TerminalTransition A G × T)
    (intoFrame : G → N) (val : N) (rest : List N) (bottom : T) (input : I) :
    (stack_elm_transition frameStep bottomStep intoFrame
      (val :: rest) bottom input).2.2 = bottom := by
  rcases hf : frameStep val input with ⟨tr, stepped⟩
  cases tr <;> simp [stack_elm_transition, hf]

/-- A driver for the node protocol of behavior_tree_node.rs: step the node
on each input in turn, continuing only through the continuation returned
in the Nonterminal case; a Terminal result carries no continuation, so the
run necessarily ends there. -/
def runNode {I R T N : Type} (step : N → I → NodeResult R T N) :
    N → List I → List (Statepoint R T)
  | _, [] => []
  | n, i :: rest =>
    match step n i with
    | NodeResult.Nonterminal r n2 => Statepoint.Nonterminal r :: runNode step n2 rest
    | NodeResult.Terminal t => [Statepoint.Terminal t]

/-- Concrete node from the finality example of the spec: on input 0 it returns
Terminal 5, on any other input Nonterminal of the input. -/
def finality_example_step (_n : Unit) (input : Int) : NodeResult Int Int Unit :=
  if input = 0 then NodeResult.Terminal 5
  else NodeResult.Nonterminal input ()

/-- C2: in any sequence of steps driven through returned continuations, a
node that has yielded Terminal is never stepped again: whenever a Terminal
statepoint occurs in the trace of a run, it is the very last element of
the trace, preceded only by Nonterminal statepoints. -/
theorem node_terminal_finality {I R T N : Type}
    (step : N → I → NodeResult R T N) (n : N) (is : List I) (t : T)
    (h : Statepoint.Terminal t ∈ runNode step n is) :
    ∃ pre, (∀ x ∈ pre, ∃ r, x = Statepoint.Nonterminal r) ∧
      runNode step n is = pre ++ [Statepoint.Terminal t] := by
  induction is generalizing n with
  | nil => simp [runNode] at h
  | cons i rest ih =>
    rcases hs : step n i with ⟨r, n2⟩ | t2
    · simp only [runNode, hs] at h ⊢
      rcases List.mem_cons.mp h with hhead | htail
      · exact absurd hhead (by simp)
      · rcases ih n2 htail with ⟨pre, hpre, heq⟩
        refine ⟨Statepoint.Nonterminal r :: pre, ?_, ?_⟩
        · intro x hx
          rcases List.mem_cons.mp hx with hx0 | hx1
          · exact ⟨r, hx0⟩
          · exact hpre x hx1
        · rw [heq]
          rfl
    · simp only [runNode, hs] at h ⊢
      have ht : Statepoint.Terminal t = (Statepoint.Terminal t2 :
          Statepoint R T) := List.mem_singleton.mp h
      cases ht
      exact ⟨[], by simp, rfl⟩

/-- C2 witness: the spec example node, stepped on 1 then 0, yields exactly
one Nonterminal followed by the Terminal 5, and the run ends there even
though a further input was supplied. -/
theorem node_terminal_finality_witness :
    Statepoint.Terminal 5 ∈ runNode finality_example_step () [1, 0, 7] ∧
    ∃ pre, (∀ x ∈ pre, ∃ r, x = Statepoint.Nonterminal r) ∧
      runNode finality_example_step () [1, 0, 7]
        = pre ++ [Statepoint.Terminal 5] :=
  ⟨by decide, node_terminal_finality finality_example_step () [1, 0, 7] 5
    (by decide)⟩

/-- From serial_node.rs: possible decisions when the child reaches a
nonterminal state: keep stepping it, switch to a fresh variant, or exit
the supernode. -/
inductive NontermDecision (E T X : Type) where
  | Step (t : T)
  | Trans (e : E) (t : T)
  | Exit (x : X)
deriving DecidableEq, Repr

/-- From serial_node.rs: possible decisions when the child reaches a
terminal state: switch to a fresh variant or exit; there is no Step. -/
inductive TermDecision (E T X : Type) where
  | Trans (e : E) (t : T)
  | Exit (x : X)
deriving DecidableEq, Repr

/-- From serial_node.rs: the nonterminal return of a SerialBranchNode,
tagging the value of the child with the discriminant that was active, and
with whether the child was nonterminal or terminal. -/
inductive NontermReturn (E N T : Type) where
  | Nonterminal (e : E) (n : N)
  | Terminal (e : E) (t : T)
deriving DecidableEq, Repr

/-- From serial_node.rs: an EnumNode, modelled by its step function, its
constructor from a discriminant, and its discriminant projection. -/
structure EnumNodeImpl (I Nt Tt Δ E : Type) where
  step : E → I → NodeResult Nt Tt E
  new : Δ → E
  discriminant_of : E → Δ

/-- From serial_node.rs: a SerialDecider, modelled by its two decision
functions. -/
structure SerialDeciderImpl (I Nt Tt Δ X : Type) where
  on_nonterminal : I → Δ → Nt → NontermDecision Δ Nt X
  on_terminal : I → Δ → Tt → TermDecision Δ Tt X

/-- From serial_node.rs, SerialBranchNode::step: read the discriminant of the live
variant, step it, and dispatch on the decision of the decider; Step keeps
the continuation of the child, Trans builds a fresh instance of the new
variant, Exit terminates the serial node. -/
def serial_step {I Nt Tt Δ E X : Type}
    (en : EnumNodeImpl I Nt Tt Δ E) (dec : SerialDeciderImpl I Nt Tt Δ X)
    (node : E) (input : I) : NodeResult (NontermReturn Δ Nt Tt) X E :=
  let discriminant := en.discriminant_of node
  match en.step node input with
  | NodeResult.Nonterminal i n =>
    match dec.on_nonterminal input discriminant i with
    | NontermDecision.Step j =>
        NodeResult.Nonterminal (NontermReturn.Nonterminal discriminant j) n
    | NontermDecision.Trans e j =>
        NodeResult.Nonterminal (NontermReturn.Nonterminal discriminant j) (en.new e)
    | NontermDecision.Exit x => NodeResult.Terminal x
  | NodeResult.Terminal i =>
    match dec.on_terminal input discriminant i with
    | TermDecision.Trans e j =>
        NodeResult.Nonterminal (NontermReturn.Terminal discriminant j) (en.new e)
    | TermDecision.Exit x => NodeResult.Terminal x

/-- The discriminant tag carried by a NontermReturn, in either case. -/
def reported_discriminant {E N T : Type} : NontermReturn E N T → E
  | NontermReturn.Nonterminal e _ => e
  | NontermReturn.Terminal e _ => e

/-- Concrete enum node mirroring the MultiMachine of the serial_node.rs
tests: variant true echoes nonnegative inputs as nonterminals and negative
inputs as terminals; variant false negates them. -/
def posneg_enum_node : EnumNodeImpl Int Int Int Bool Bool where
  step := fun b input =>
    match b with
    | true =>
      if 0 ≤ input then NodeResult.Nonterminal input true
      else NodeResult.Terminal input
    | false =>
      if 0 ≤ input then NodeResult.Nonterminal (-input) false
      else NodeResult.Terminal (-input)
  new := fun d => d
  discriminant_of := fun b => b

/-- Concrete decider mirroring the Switcharound of the serial_node.rs
tests: always Step on a nonterminal child, always switch to the other
variant on a terminal child. -/
def switcharound_decider : SerialDeciderImpl Int Int Int Bool Unit where
  on_nonterminal := fun _ _ v => NontermDecision.Step v
  on_terminal := fun _ d v => TermDecision.Trans (!d) v

/-- C3: whenever a serial step reports a result tagged with discriminant
D, D is exactly the discriminant of the live variant held when the step
began. -/
theorem serial_discriminant_fidelity {I Nt Tt Δ E X : Type}
    (en : EnumNodeImpl I Nt Tt Δ E) (dec : SerialDeciderImpl I Nt Tt Δ X)
    (node : E) (input : I) (rep : NontermReturn Δ Nt Tt) (cont : E)
    (h : serial_step en dec node input = NodeResult.Nonterminal rep cont) :
    reported_discriminant rep = en.discriminant_of node := by
  rcases hs : en.step node input with ⟨i, n⟩ | i
  · simp only [serial_step, hs] at h
    rcases hd : dec.on_nonterminal input (en.discriminant_of node) i with j | ⟨e, j⟩ | x
    · rw [hd] at h
      cases h
      rfl
    · rw [hd] at h
      cases h
      rfl
    · rw [hd] at h
      exact absurd h (by simp)
  · simp only [serial_step, hs] at h
    rcases hd : dec.on_terminal input (en.discriminant_of node) i with ⟨e, j⟩ | x
    · rw [hd] at h
      cases h
      rfl
    · rw [hd] at h
      exact absurd h (by simp)

/-- C3 witness: the switcharound serial node at variant true, stepped with
input 5, reports a nonterminal tagged true — the discriminant of the
variant that was live when the call began. -/
theorem serial_discriminant_fidelity_witness :
    serial_step posneg_enum_node switcharound_decider true 5
      = NodeResult.Nonterminal (NontermReturn.Nonterminal true 5) true ∧
    reported_discriminant (NontermReturn.Nonterminal (true : Bool) (5 : Int)
      (T := Int)) = posneg_enum_node.discriminant_of true :=
  ⟨by decide, serial_discriminant_fidelity posneg_enum_node
    switcharound_decider true 5 _ true (by decide)⟩

/-- C8: when the step of the live child returns Terminal, the decider result is
restricted to Trans or Exit, so the serial node either reports a
Terminal-tagged nonterminal paired with a freshly constructed instance of
the new variant, or exits with a terminal value. -/
theorem serial_terminal_child_decision {I Nt Tt Δ E X : Type}
    (en : EnumNodeImpl I Nt Tt Δ E) (dec : SerialDeciderImpl I Nt Tt Δ X)
    (node : E) (input : I) (i : Tt)
    (h : en.step node input = NodeResult.Terminal i) :
    (∃ e j, dec.on_terminal input (en.discriminant_of node) i
        = TermDecision.Trans e j ∧
      serial_step en dec node input = NodeResult.Nonterminal
        (NontermReturn.Terminal (en.discriminant_of node) j) (en.new e)) ∨
    (∃ x, dec.on_terminal input (en.discriminant_of node) i
        = TermDecision.Exit x ∧
      serial_step en dec node input = NodeResult.Terminal x) := by
  rcases hd : dec.on_terminal input (en.discriminant_of node) i with ⟨e, j⟩ | x
  · exact Or.inl ⟨e, j, rfl, by simp only [serial_step, h, hd]⟩
  · exact Or.inr ⟨x, rfl, by simp only [serial_step, h, hd]⟩

/-- C8 witness: the switcharound serial node at variant true with input
-5: the child is terminal, the decider switches to variant false, and the
node reports a Terminal-tagged nonterminal with a fresh false variant. -/
theorem serial_terminal_child_decision_witness :
    posneg_enum_node.step true (-5) = NodeResult.Terminal (-5) ∧
    ((∃ e j, switcharound_decider.on_terminal (-5)
        (posneg_enum_node.discriminant_of true) (-5)
        = TermDecision.Trans e j ∧
      serial_step posneg_enum_node switcharound_decider true (-5)
        = NodeResult.Nonterminal
          (NontermReturn.Terminal (posneg_enum_node.discriminant_of true) j)
          (posneg_enum_node.new e)) ∨
    (∃ x, switcharound_decider.on_terminal (-5)
        (posneg_enum_node.discriminant_of true) (-5)
        = TermDecision.Exit x ∧
      serial_step posneg_enum_node switcharound_decider true (-5)
        = NodeResult.Terminal x)) :=
  ⟨by decide, serial_terminal_child_decision posneg_enum_node
    switcharound_decider true (-5) (-5) (by decide)⟩

/-- Driver for a pure automaton modelled as a step function on a state
type: run it over a list of inputs, collecting the actions and the final
state. -/
def runAuto {I A σ : Type} (step : σ → I → A × σ) :
    σ → List I → List A × σ
  | s, [] => ([], s)
  | s, i :: rest =>
    let (a, s2) := step s i
    let (as, s3) := runAuto step s2 rest
    (a :: as, s3)

/-- From node_compositions.rs, ParallelRacer::each_step: scan the
statepoints in index order for the first terminal; if none, forward the
statepoints unchanged; otherwise exit with the index of that child and its
terminal value (the element the Rust code removes with swap_remove and
re-matches). -/
def racer_find {N T : Type} : List (Statepoint N T) → Option (Nat × T)
  | [] => none
  | Statepoint.Terminal t :: _ => some (0, t)
  | Statepoint.Nonterminal _ :: rest =>
    match racer_find rest with
    | none => none
    | some (i, t) => some (i + 1, t)

/-- From node_compositions.rs, ParallelRacer::each_step, assembled from
the index search above. -/
def racer_each_step {N T : Type} (states : List (Statepoint N T)) :
    Statepoint (List (Statepoint N T)) (Nat × T) :=
  match racer_find states with
  | none => Statepoint.Nonterminal states
  | some (i, t) => Statepoint.Terminal (i, t)

/-- From parallel_node.rs, ParallelBranchNode::step: step the collection
automaton, hand the statepoint vector to the decider, and either continue
with the stepped collection or exit with the terminal value of the decider. -/
def parallel_step {I N T X σ : Type}
    (collStep : σ → I → List (Statepoint N T) × σ)
    (decider : I → List (Statepoint N T) →
      Statepoint (List (Statepoint N T)) X)
    (coll : σ) (input : I) :
    NodeResult (List (Statepoint N T)) X σ :=
  let (results, coll2) := collStep coll input
  match decider input results with
  | Statepoint.Nonterminal ret => NodeResult.Nonterminal ret coll2
  | Statepoint.Terminal t => NodeResult.Terminal t

/-- If some statepoint in the vector is terminal, the racer search finds
the first terminal: its index points at a terminal element and every
earlier element is nonterminal. -/
theorem racer_find_first {N T : Type} (states : List (Statepoint N T))
    (h : ∃ t0, Statepoint.Terminal t0 ∈ states) :
    ∃ idx tv, racer_find states = some (idx, tv) ∧
      states.get? idx = some (Statepoint.Terminal tv) ∧
      ∀ j < idx, ∃ r, states.get? j = some (Statepoint.Nonterminal r) := by
  rcases h with ⟨t0, ht⟩
  induction states with
  | nil => simp at ht
  | cons head rest ih =>
    rcases head with r | t
    · have htail : Statepoint.Terminal t0 ∈ rest := by
        rcases List.mem_cons.mp ht with h0 | h1
        · exact absurd h0 (by simp)
        · exact h1
      rcases ih htail with ⟨idx, tv, hfind, hget, hbefore⟩
      refine ⟨idx + 1, tv, ?_, ?_, ?_⟩
      · simp only [racer_find, hfind]
      · simpa using hget
      · intro j hj
        match j with
        | 0 => exact ⟨r, rfl⟩
        | j + 1 =>
          have := hbefore j (by omega)
          simpa using this
    · exact ⟨0, t, rfl, rfl, by omega⟩

/-- Concrete racing children for the spec scenario: a counter child whose
terminal tick is a parameter; it counts the ticks it has been stepped and
terminates, reporting the tick count, exactly when the count reaches the
terminal tick. -/
def counter_child_step (terminalTick : Nat) (s : Nat) (_input : Unit) :
    Statepoint Nat Nat × Nat :=
  if s + 1 = terminalTick then (Statepoint.Terminal (s + 1), s + 1)
  else (Statepoint.Nonterminal (s + 1), s + 1)

/-- Concrete two-child collection automaton for the racer scenario: child
0 terminates on tick 2 and child 1 on tick 5, both stepped with the same
input each tick. -/
def race_collection_step (s : Nat × Nat) (input : Unit) :
    List (Statepoint Nat Nat) × (Nat × Nat) :=
  let (r0, s0) := counter_child_step 2 s.1 input
  let (r1, s1) := counter_child_step 5 s.2 input
  ([r0, r1], (s0, s1))

/-- C4: with the ParallelRacer policy, whenever the collection reports at
least one terminal statepoint, the parallel node exits with Terminal
(index, value) for the first terminal child: the element at that index is
Terminal with that value and all earlier children are nonterminal. -/
theorem parallel_racer_exits_on_first_terminal {I N T σ : Type}
    (collStep : σ → I → List (Statepoint N T) × σ)
    (coll : σ) (input : I)
    (h : ∃ t0, Statepoint.Terminal t0 ∈ (collStep coll input).1) :
    ∃ idx tv,
      parallel_step collStep (fun _ s => racer_each_step s) coll input
        = NodeResult.Terminal (idx, tv) ∧
      (collStep coll input).1.get? idx = some (Statepoint.Terminal tv) ∧
      ∀ j < idx, ∃ r,
        (collStep coll input).1.get? j = some (Statepoint.Nonterminal r) := by
  rcases racer_find_first (collStep coll input).1 h with
    ⟨idx, tv, hfind, hget, hbefore⟩
  refine ⟨idx, tv, ?_, hget, hbefore⟩
  rcases hc : collStep coll input with ⟨results, coll2⟩
  rw [hc] at hfind
  simp only [parallel_step, hc, racer_each_step, hfind]

/-- C4 witness: in the tick-2 versus tick-5 race, tick 1 is nonterminal
for both children, and at tick 2 the node exits with index 0 and the
terminal value 2 of the first child. -/
theorem parallel_racer_exits_on_first_terminal_witness :
    parallel_step race_collection_step (fun _ s => racer_each_step s)
      ((0 : Nat), (0 : Nat)) ()
      = NodeResult.Nonterminal
          [Statepoint.Nonterminal 1, Statepoint.Nonterminal 1] (1, 1) ∧
    ∃ idx tv,
      parallel_step race_collection_step (fun _ s => racer_each_step s)
        ((1 : Nat), (1 : Nat)) ()
        = NodeResult.Terminal (idx, tv) ∧
      (race_collection_step (1, 1) ()).1.get? idx
        = some (Statepoint.Terminal tv) ∧
      ∀ j < idx, ∃ r, (race_collection_step (1, 1) ()).1.get? j
        = some (Statepoint.Nonterminal r) :=
  ⟨by decide, parallel_racer_exits_on_first_terminal race_collection_step
    (1, 1) () ⟨2, by decide⟩⟩

/-- Driver for a fallible automaton whose transition may report poisoning
as none: run it over a list of inputs, stopping with none if any call
fails. -/
def runOptAuto {I A σ : Type} (trans : σ → I → Option (A × σ)) :
    σ → List I → Option (List A × σ)
  | s, [] => some ([], s)
  | s, i :: rest =>
    match trans s i with
    | none => none
    | some (a, s2) =>
      match runOptAuto trans s2 rest with
      | none => none
      | some (as, s3) => some (a :: as, s3)

/-- From node_runner.rs, fn node_runner_transition: the held node is taken
out of its Option slot; a none slot is the poisoned branch (the Rust
panic).  On Nonterminal the continuation is retained; on Terminal a
brand-new default node is put in its place. -/
def node_runner_transition {I R T N : Type} (step : N → I → NodeResult R T N)
    (dflt : N) (node : Option N) (input : I) :
    Option (Statepoint R T × Option N) :=
  match node with
  | some n =>
    match step n input with
    | NodeResult.Nonterminal s a => some (Statepoint.Nonterminal s, some a)
    | NodeResult.Terminal t => some (Statepoint.Terminal t, some dflt)
  | none => none

/-- Concrete node for the runner scenario: it counts its own steps and
terminates exactly on its third step, reporting the count. -/
def third_tick_step (c : Nat) (_input : Unit) : NodeResult Nat Nat Nat :=
  if c + 1 = 3 then NodeResult.Terminal (c + 1)
  else NodeResult.Nonterminal (c + 1) (c + 1)

/-- The slot of a NodeRunner wrapping the third-tick node, freshly built
from the default node 0, after k transition calls. -/
def third_runner_state : Nat → Option Nat
  | 0 => some 0
  | k + 1 =>
    match node_runner_transition third_tick_step 0 (third_runner_state k) () with
    | some (_, s2) => s2
    | none => none

/-- After k ticks the runner around the third-tick node holds the node at
count k modulo 3. -/
theorem third_runner_state_eq (k : Nat) :
    third_runner_state k = some (k % 3) := by
  induction k with
  | zero => rfl
  | succ k ih =>
    have hk : third_runner_state (k + 1)
        = match node_runner_transition third_tick_step 0
            (third_runner_state k) () with
          | some (_, s2) => s2
          | none => none := rfl
    rw [hk, ih]
    by_cases h3 : k % 3 + 1 = 3
    · have hs : third_tick_step (k % 3) () = NodeResult.Terminal (k % 3 + 1) := by
        simp [third_tick_step, h3]
      simp only [node_runner_transition, hs]
      have : (k + 1) % 3 = 0 := by omega
      rw [this]
    · have hs : third_tick_step (k % 3) ()
          = NodeResult.Nonterminal (k % 3 + 1) (k % 3 + 1) := by
        simp [third_tick_step, h3]
      simp only [node_runner_transition, hs]
      have : (k + 1) % 3 = k % 3 + 1 := by omega
      rw [this]

/-- C5: each runner transition steps the held node; on Nonterminal it
retains the continuation and reports the nonterminal value, on Terminal
it installs a brand-new default node and reports the terminal value; so
the runner around the third-tick node reports Terminal exactly on ticks
divisible by 3 and Nonterminal on all others, indefinitely. -/
theorem node_runner_spec {I R T N : Type} (step : N → I → NodeResult R T N)
    (dflt : N) :
    (∀ (n : N) (input : I) (s : R) (a : N),
      step n input = NodeResult.Nonterminal s a →
      node_runner_transition step dflt (some n) input
        = some (Statepoint.Nonterminal s, some a)) ∧
    (∀ (n : N) (input : I) (t : T),
      step n input = NodeResult.Terminal t →
      node_runner_transition step dflt (some n) input
        = some (Statepoint.Terminal t, some dflt)) ∧
    (∀ k : Nat,
      node_runner_transition third_tick_step 0 (third_runner_state k) ()
        = some (if (k + 1) % 3 = 0 then Statepoint.Terminal 3
                else Statepoint.Nonterminal (k % 3 + 1),
                some ((k + 1) % 3))) := by
  refine ⟨?_, ?_, ?_⟩
  · intro n input s a h
    simp only [node_runner_transition, h]
  · intro n input t h
    simp only [node_runner_transition, h]
  · intro k
    rw [third_runner_state_eq k]
    by_cases h3 : (k + 1) % 3 = 0
    · have h2 : k % 3 + 1 = 3 := by omega
      have hs : third_tick_step (k % 3) ()
          = NodeResult.Terminal (k % 3 + 1) := by
        simp [third_tick_step, h2]
      simp only [node_runner_transition, hs, if_pos h3, h2]
      have h0 : (k + 1) % 3 = 0 := h3
      rw [h0]
    · have h2 : ¬ (k % 3 + 1 = 3) := by omega
      have hs : third_tick_step (k % 3) ()
          = NodeResult.Nonterminal (k % 3 + 1) (k % 3 + 1) := by
        simp [third_tick_step, h2]
      simp only [node_runner_transition, hs, if_neg h3]
      have : (k + 1) % 3 = k % 3 + 1 := by omega
      rw [this]

/-- C5 witness: the runner around the third-tick node at concrete ticks:
a nonterminal retention at count 0, a terminal auto-restart at count 2,
and the third tick of the run reporting Terminal 3 with the slot reset. -/
theorem node_runner_spec_witness :
    node_runner_transition third_tick_step 0 (some 0) ()
      = some (Statepoint.Nonterminal 1, some 1) ∧
    node_runner_transition third_tick_step 0 (some 2) ()
      = some (Statepoint.Terminal 3, some 0) ∧
    node_runner_transition third_tick_step 0 (third_runner_state 2) ()
      = some (if (2 + 1) % 3 = 0 then Statepoint.Terminal 3
              else Statepoint.Nonterminal (2 % 3 + 1), some ((2 + 1) % 3)) :=
  ⟨(node_runner_spec third_tick_step 0).1 0 () 1 1 (by decide),
   (node_runner_spec third_tick_step 0).2.1 2 () 3 (by decide),
   (node_runner_spec third_tick_step 0).2.2 2⟩

/-- From automata_combinators.rs: the two states of a lazily constructed
machine: an already-built machine, or a pending constructor. -/
inductive LazyConstructedInner (σ C : Type) where
  | Machine (m : σ)
  | Pending (c : C)

/-- The machine used for the current call: the held machine if built, or
the one produced by invoking the pending constructor with this input. -/
def lazy_machine_of {I σ : Type}
    (inner : LazyConstructedInner σ (I → σ)) (input : I) : σ :=
  match inner with
  | LazyConstructedInner.Machine m => m
  | LazyConstructedInner.Pending c => c input

/-- From automata_combinators.rs, LazyConstructedMachine::transition: the
slot is taken (none is the poisoned branch); a pending constructor is
invoked with this very input; the machine is then stepped with the same
input and stored back as a built machine. -/
def lazy_transition {I A σ : Type} (mstep : σ → I → A × σ)
    (state : Option (LazyConstructedInner σ (I → σ))) (input : I) :
    Option (A × Option (LazyConstructedInner σ (I → σ))) :=
  match state with
  | none => none
  | some inner =>
    let (a, m2) := mstep (lazy_machine_of inner input) input
    some (a, some (LazyConstructedInner.Machine m2))

/-- A lazily constructed machine that is already built runs exactly as the
underlying machine runs. -/
theorem lazy_machine_run {I A σ : Type} (mstep : σ → I → A × σ) (m : σ)
    (is : List I) :
    runOptAuto (lazy_transition mstep)
      (some (LazyConstructedInner.Machine m)) is
      = some ((runAuto mstep m is).1,
          some (LazyConstructedInner.Machine (runAuto mstep m is).2)) := by
  induction is generalizing m with
  | nil => rfl
  | cons i rest ih =>
    rcases hm : mstep m i with ⟨a, m2⟩
    simp only [runOptAuto, lazy_transition, runAuto, lazy_machine_of, hm, ih m2]

/-- C6: a freshly built lazily constructed machine stepped with inputs
i0, i1, ... produces exactly the action sequence of the machine ctor(i0)
stepped with i0, i1, ...: the first input parametrizes construction and is
then fed through as the first transition input, exactly once. -/
theorem lazy_construction_refinement {I A σ : Type} (mstep : σ → I → A × σ)
    (ctor : I → σ) (i0 : I) (is : List I) :
    runOptAuto (lazy_transition mstep)
      (some (LazyConstructedInner.Pending ctor)) (i0 :: is)
      = some ((runAuto mstep (ctor i0) (i0 :: is)).1,
          some (LazyConstructedInner.Machine
            (runAuto mstep (ctor i0) (i0 :: is)).2)) := by
  rcases hm : mstep (ctor i0) i0 with ⟨a, m2⟩
  simp only [runOptAuto, lazy_transition, runAuto, lazy_machine_of, hm,
    lazy_machine_run]

/-- From automata_combinators.rs, MachineSeries::transition: the action of
the first machine on the input is fed as the input of the second. -/
def series_transition {I J K σM σN : Type} (stepM : σM → I → J × σM)
    (stepN : σN → J → K × σN) (s : σM × σN) (input : I) : K × (σM × σN) :=
  let (j, m2) := stepM s.1 input
  let (k, n2) := stepN s.2 j
  (k, (m2, n2))

/-- C7: over any number of sequential calls, the series composition
produces exactly the actions of running the second machine on the action
stream of the first, with both internal states evolving exactly as they
would when stepped separately. -/
theorem series_composition {I J K σM σN : Type} (stepM : σM → I → J × σM)
    (stepN : σN → J → K × σN) (m : σM) (n : σN) (is : List I) :
    runAuto (series_transition stepM stepN) (m, n) is
      = ((runAuto stepN n (runAuto stepM m is).1).1,
         ((runAuto stepM m is).2,
          (runAuto stepN n (runAuto stepM m is).1).2)) := by
  induction is generalizing m n with
  | nil => rfl
  | cons i rest ih =>
    rcases hm : stepM m i with ⟨j, m2⟩
    rcases hn : stepN n j with ⟨k, n2⟩
    simp only [runAuto, series_transition, hm, hn, ih m2 n2]

/-- From ref_state_machine.rs, RefStateMachine::transition: the held
callable is taken out of its Option slot (none being the poisoned
branch), consumed on the input, and its returned replacement stored
back. -/
def ref_transition {I A C : Type} (cstep : C → I → A × C)
    (state : Option C) (input : I) : Option (A × Option C) :=
  match state with
  | none => none
  | some c =>
    let (a, c2) := cstep c input
    some (a, some c2)

/-- From dual_state_machine.rs, DualStateMachine::transition: like the
reference machine but the callable also mutates a separately owned
internal state. -/
def dual_transition {I A C S : Type} (cstep : C → I → S → A × C × S)
    (state : Option C × S) (input : I) : Option (A × (Option C × S)) :=
  match state.1 with
  | none => none
  | some c =>
    let (a, c2, s2) := cstep c input state.2
    some (a, (some c2, s2))

/-- C10: for each take-and-replace wrapper — reference machine, dual
machine, lazily constructed machine, node runner — the Option slot is
Some at construction and is restored to Some by every call, so any finite
sequence of transitions from a fresh value never reaches the poisoned
branch and every call is total. -/
theorem take_and_replace_never_poisoned {I A C S N R T σ : Type}
    (cstep : C → I → A × C) (dstep : C → I → S → A × C × S)
    (mstep : σ → I → A × σ) (nstep : N → I → NodeResult R T N) (dflt : N) :
    (∀ (c : C) (is : List I), ∃ as c2,
      runOptAuto (ref_transition cstep) (some c) is = some (as, some c2)) ∧
    (∀ (c : C) (s : S) (is : List I), ∃ as c2 s2,
      runOptAuto (dual_transition dstep) (some c, s) is
        = some (as, (some c2, s2))) ∧
    (∀ (inner : LazyConstructedInner σ (I → σ)) (is : List I), ∃ as inner2,
      runOptAuto (lazy_transition mstep) (some inner) is
        = some (as, some inner2)) ∧
    (∀ (n : N) (is : List I), ∃ as n2,
      runOptAuto (node_runner_transition nstep dflt) (some n) is
        = some (as, some n2)) := by
  refine ⟨?_, ?_, ?_, ?_⟩
  · intro c is
    induction is generalizing c with
    | nil => exact ⟨[], c, rfl⟩
    | cons i rest ih =>
      rcases hc : cstep c i with ⟨a, c2⟩
      rcases ih c2 with ⟨as, c3, hrun⟩
      exact ⟨a :: as, c3, by
        simp only [runOptAuto, ref_transition, hc, hrun]⟩
  · intro c s is
    induction is generalizing c s with
    | nil => exact ⟨[], c, s, rfl⟩
    | cons i rest ih =>
      rcases hc : dstep c i s with ⟨a, c2, s2⟩
      rcases ih c2 s2 with ⟨as, c3, s3, hrun⟩
      exact ⟨a :: as, c3, s3, by
        simp only [runOptAuto, dual_transition, hc, hrun]⟩
  · intro inner is
    cases is with
    | nil => exact ⟨[], inner, rfl⟩
    | cons i rest =>
      rcases hm : mstep (lazy_machine_of inner i) i with ⟨a, m2⟩
      refine ⟨a :: (runAuto mstep m2 rest).1,
        LazyConstructedInner.Machine (runAuto mstep m2 rest).2, ?_⟩
      simp only [runOptAuto, lazy_transition, hm, lazy_machine_run]
  · intro n is
    induction is generalizing n with
    | nil => exact ⟨[], n, rfl⟩
    | cons i rest ih =>
      rcases hs : nstep n i with ⟨s, a⟩ | t
      · rcases ih a with ⟨as, n2, hrun⟩
        exact ⟨Statepoint.Nonterminal s :: as, n2, by
          simp only [runOptAuto, node_runner_transition, hs, hrun]⟩
      · rcases ih dflt with ⟨as, n2, hrun⟩
        exact ⟨Statepoint.Terminal t :: as, n2, by
          simp only [runOptAuto, node_runner_transition, hs, hrun]⟩

end StackBT
